import Mathlib

/-!
Shallow embedding of `rollbackcontext` (src/rollbackcontext/__init__.py), a
Python context manager that records undo actions and plays them back on scope
exit.

Modelling choices:

* A registered callable together with its bound positional and keyword
  arguments is represented by an opaque label of type `α`; invoking it is an
  observable event that appends that label to a trace.
* What the call `func(*args, **kwargs)` does when invoked is captured by
  `Invoke ε`: it returns normally (`ok`), raises an `Exception` instance
  (`exc e`), or raises a `BaseException` that is not an `Exception`, such as
  `KeyboardInterrupt` (`base e`).  The distinction matters because the
  playback loop in `__exit__` catches only `Exception`.
* The `Undo` namedtuple of the source holds the callable, a one-element list
  used as a mutable auto-commit cell, and the bound arguments.  Here it holds
  the label, the invocation behaviour and the value of the auto-commit flag.
* The deque `self._finally` is a `List`, front = left end of the deque
  (playback order).  `appendleft` is cons, `append` is concat at the end.
* `__exit__` is a function from the context state and the incoming exception
  (`Option ε`, `none` when the protected block finished normally) to the
  trace of invocations, the outcome that propagates to the caller, and the
  state after the call.  The source's `__exit__` never mutates
  `self._finally` (the `for` loop iterates the deque without popping and
  nothing reassigns or clears it), so the post-state is the input state.
-/

namespace Rollback

/-- Result of invoking a registered callable with its bound arguments:
normal return, raising an `Exception` instance, or raising a `BaseException`
that is not an `Exception` (e.g. `KeyboardInterrupt`, `SystemExit`). -/
inductive Invoke (ε : Type) where
  | ok : Invoke ε
  | exc : ε → Invoke ε
  | base : ε → Invoke ε
  deriving DecidableEq, Repr

/-- The `Undo` namedtuple: the callable with its bound arguments (collapsed
into `label` for identity and `undo` for invocation behaviour) and the
auto-commit cell's current value. -/
structure Undo (α ε : Type) where
  label : α
  undo : Invoke ε
  autoCommit : Bool
  deriving DecidableEq, Repr

/-- The method `Undo.setAutoCommit`: sets the mutable cell to `True`. -/
def setAutoCommit (u : Undo α ε) : Undo α ε :=
  ⟨u.label, u.undo, true⟩

/-- The state of a `RollbackContext` object: the deque `self._finally`
(front of the list = left end of the deque = first in playback order) and
the unused attribute `self._lastUndo`. -/
structure RollbackContext (α ε : Type) where
  _finally : List (Undo α ε)
  _lastUndo : Option (Undo α ε)
  deriving DecidableEq, Repr

/-- The constructor `__init__`: empty deque, `_lastUndo = None`. -/
def init : RollbackContext α ε :=
  ⟨[], none⟩

/-- The method `_push`: builds `Undo(func, [False], args, kwargs)`, appends
it at the left (`toTop`) or right end of the deque, and returns the record
itself. -/
def _push (c : RollbackContext α ε) (a : α) (b : Invoke ε) (toTop : Bool) :
    Undo α ε × RollbackContext α ε :=
  if toTop then (⟨a, b, false⟩, ⟨⟨a, b, false⟩ :: c._finally, c._lastUndo⟩)
  else (⟨a, b, false⟩, ⟨c._finally ++ [⟨a, b, false⟩], c._lastUndo⟩)

/-- The method `push`: registers at the top (left end) of the deque. -/
def push (c : RollbackContext α ε) (a : α) (b : Invoke ε) :
    Undo α ε × RollbackContext α ε :=
  _push c a b true

/-- The method `pushBottom`: registers at the bottom (right end). -/
def pushBottom (c : RollbackContext α ε) (a : α) (b : Invoke ε) :
    Undo α ε × RollbackContext α ε :=
  _push c a b false

/-- The method `commitAll`: `self._finally.clear()`. -/
def commitAll (c : RollbackContext α ε) : RollbackContext α ε :=
  ⟨[], c._lastUndo⟩

/-- The statement `if undoExcInfo is None: undoExcInfo = sys.exc_info()`:
the first captured value wins, later ones are discarded. -/
def keepFirst (a b : Option ε) : Option ε :=
  match a with
  | none => b
  | some e => some e

/-- The `for` loop of `__exit__`.  `excClear` is `exc_type is None`; the
`Option ε` accumulator is `undoExcInfo` (kept only if still `None`, i.e. the
earliest undo `Exception` wins).  Returns the trace of invoked labels and
either the final `undoExcInfo` (`Except.ok`) or, when an action raises a
non-`Exception` failure that the `except Exception` clause does not catch,
the failure that escapes the loop (`Except.error`). -/
def exitLoop (excClear : Bool) :
    List (Undo α ε) → Option ε → List α × Except ε (Option ε)
  | [], acc => ([], .ok acc)
  | u :: rest, acc =>
    if excClear && u.autoCommit then
      exitLoop excClear rest acc
    else
      match u.undo with
      | .ok =>
        let r := exitLoop excClear rest acc
        (u.label :: r.1, r.2)
      | .exc e =>
        let r := exitLoop excClear rest (keepFirst acc (some e))
        (u.label :: r.1, r.2)
      | .base e => ([u.label], .error e)

/-- What the scope's caller observes after `__exit__` finishes. -/
inductive ExitOutcome (ε : Type) where
  | clean : ExitOutcome ε
  | reraised : ε → ExitOutcome ε
  | undoRaised : ε → ExitOutcome ε
  | baseAbort : ε → ExitOutcome ε
  deriving DecidableEq, Repr

/-- The method `__exit__`, as observed through the `with` statement:
`incoming` is the protected block's exception (or `none`).  If the loop is
escaped by a non-`Exception` failure, that failure propagates (it replaces
the incoming one).  Otherwise, when there is an incoming exception,
`__exit__` returns a falsy value and Python re-raises the incoming
exception; when there is none and `undoExcInfo` was captured, the final
`raise` statement raises it; otherwise the exit is clean.  `self._finally`
is not mutated, so the post-state equals the input state. -/
def scopeExit (c : RollbackContext α ε) (incoming : Option ε) :
    List α × ExitOutcome ε × RollbackContext α ε :=
  match exitLoop incoming.isNone c._finally none with
  | (t, .error e) => (t, .baseAbort e, c)
  | (t, .ok acc) =>
    match incoming, acc with
    | some e, _ => (t, .reraised e, c)
    | none, some e => (t, .undoRaised e, c)
    | none, none => (t, .clean, c)

/-- Registration of a whole sequence of `push` calls (each item: label and
invocation behaviour). -/
def pushAll : RollbackContext α ε → List (α × Invoke ε) → RollbackContext α ε
  | c, [] => c
  | c, p :: ps => pushAll (push c p.1 p.2).2 ps

/-- Registration of an interleaved sequence of `push` (`true`) and
`pushBottom` (`false`) calls. -/
def registerAll :
    RollbackContext α ε → List (Bool × α × Invoke ε) → RollbackContext α ε
  | c, [] => c
  | c, r :: rs => registerAll (_push c r.2.1 r.2.2 r.1).2 rs

/-- The `push`-registered items of an interleaved sequence, in registration
order. -/
def topsOf (rs : List (Bool × α × Invoke ε)) : List (α × Invoke ε) :=
  (rs.filter (·.1)).map (·.2)

/-- The `pushBottom`-registered items, in registration order. -/
def bottomsOf (rs : List (Bool × α × Invoke ε)) : List (α × Invoke ε) :=
  (rs.filter (fun r => !r.1)).map (·.2)

/-- The record freshly built by `_push` for one registration item. -/
def mkUndo (p : α × Invoke ε) : Undo α ε :=
  ⟨p.1, p.2, false⟩

/-- The sublist of actions that the playback loop actually invokes when no
one raises a non-`Exception` failure: with a clean incoming state
(`excClear = true`) the auto-committing actions are skipped. -/
def invokedOf (excClear : Bool) (l : List (Undo α ε)) : List (Undo α ε) :=
  l.filter (fun u => !(excClear && u.autoCommit))

/-- The first `Exception` raised along a list of invoked actions. -/
def firstExc : List (Undo α ε) → Option ε
  | [] => none
  | u :: rest =>
    match u.undo with
    | .exc e => some e
    | _ => firstExc rest

/-- The `Exception` (if any) produced by one invocation. -/
def excOf : Invoke ε → Option ε
  | .exc e => some e
  | _ => none

/-- An action whose invocation does not raise a non-`Exception` failure. -/
def NoBase (u : Undo α ε) : Prop :=
  ∀ b : ε, u.undo ≠ .base b

instance (u : Undo α ε) [DecidableEq ε] : Decidable (NoBase u) := by
  unfold NoBase
  cases u.undo with
  | ok => exact isTrue (fun b h => by cases h)
  | exc e => exact isTrue (fun b h => by cases h)
  | base e =>
    exact isFalse (fun h => h e rfl)

/-! Helper lemmas about the playback loop. -/

theorem keepFirst_none_left (b : Option ε) : keepFirst none b = b :=
  rfl

theorem keepFirst_none_right (a : Option ε) : keepFirst a none = a := by
  cases a <;> rfl

theorem keepFirst_assoc (a b c : Option ε) :
    keepFirst (keepFirst a b) c = keepFirst a (keepFirst b c) := by
  cases a <;> cases b <;> rfl

theorem invokedOf_nil (ec : Bool) : invokedOf ec ([] : List (Undo α ε)) = [] :=
  rfl

theorem invokedOf_cons (ec : Bool) (u : Undo α ε) (l : List (Undo α ε)) :
    invokedOf ec (u :: l) =
      if ec && u.autoCommit then invokedOf ec l else u :: invokedOf ec l := by
  cases ec <;> rcases hac : u.autoCommit <;>
    simp [invokedOf, List.filter_cons, hac]

theorem exitLoop_cons_skip (ec : Bool) (u : Undo α ε) (l : List (Undo α ε))
    (acc : Option ε) (h : (ec && u.autoCommit) = true) :
    exitLoop ec (u :: l) acc = exitLoop ec l acc := by
  simp [exitLoop, h]

theorem exitLoop_cons_ok (ec : Bool) (u : Undo α ε) (l : List (Undo α ε))
    (acc : Option ε) (h : (ec && u.autoCommit) = false) (hb : u.undo = .ok) :
    exitLoop ec (u :: l) acc =
      (u.label :: (exitLoop ec l acc).1, (exitLoop ec l acc).2) := by
  simp [exitLoop, h, hb]

theorem exitLoop_cons_exc (ec : Bool) (u : Undo α ε) (l : List (Undo α ε))
    (acc : Option ε) (e : ε) (h : (ec && u.autoCommit) = false)
    (hb : u.undo = .exc e) :
    exitLoop ec (u :: l) acc =
      (u.label :: (exitLoop ec l (keepFirst acc (some e))).1,
       (exitLoop ec l (keepFirst acc (some e))).2) := by
  simp [exitLoop, h, hb]

theorem exitLoop_cons_base (ec : Bool) (u : Undo α ε) (l : List (Undo α ε))
    (acc : Option ε) (e : ε) (h : (ec && u.autoCommit) = false)
    (hb : u.undo = .base e) :
    exitLoop ec (u :: l) acc = ([u.label], .error e) := by
  simp [exitLoop, h, hb]

theorem invokedOf_false (l : List (Undo α ε)) : invokedOf false l = l := by
  simp [invokedOf]

theorem invokedOf_all_false (ec : Bool) (l : List (Undo α ε))
    (h : ∀ u ∈ l, u.autoCommit = false) : invokedOf ec l = l := by
  induction l with
  | nil => rfl
  | cons u l ih =>
    have hu := h u (List.mem_cons_self u l)
    rw [invokedOf_cons]
    simp [hu, ih fun v hv => h v (List.mem_cons_of_mem u hv)]

theorem firstExc_of_ok (l : List (Undo α ε)) (h : ∀ u ∈ l, u.undo = .ok) :
    firstExc l = none := by
  induction l with
  | nil => rfl
  | cons u l ih =>
    have hu := h u (List.mem_cons_self u l)
    simp [firstExc, hu, ih fun v hv => h v (List.mem_cons_of_mem u hv)]

/-- Splitting the playback loop at a list append: provided the first part
raises no non-`Exception` failure, the loop invokes exactly its
non-skipped actions and then continues on the second part with the
accumulated `undoExcInfo`. -/
theorem exitLoop_append (ec : Bool) (l2 l1 : List (Undo α ε)) (acc : Option ε)
    (h : ∀ u ∈ l1, NoBase u) :
    exitLoop ec (l1 ++ l2) acc =
      ((invokedOf ec l1).map Undo.label ++
         (exitLoop ec l2 (keepFirst acc (firstExc (invokedOf ec l1)))).1,
       (exitLoop ec l2 (keepFirst acc (firstExc (invokedOf ec l1)))).2) := by
  induction l1 generalizing acc with
  | nil =>
    simp [invokedOf_nil, firstExc, keepFirst_none_right]
  | cons u l1 ih =>
    have hu : NoBase u := h u (List.mem_cons_self u l1)
    have h1 : ∀ v ∈ l1, NoBase v := fun v hv => h v (List.mem_cons_of_mem u hv)
    rw [List.cons_append, invokedOf_cons]
    rcases hskip : ec && u.autoCommit with _ | _
    · rw [if_neg (by simp [hskip])]
      cases hb : u.undo with
      | ok =>
        rw [exitLoop_cons_ok ec u (l1 ++ l2) acc hskip hb, ih _ h1]
        simp [firstExc, hb]
      | exc e =>
        rw [exitLoop_cons_exc ec u (l1 ++ l2) acc e hskip hb, ih _ h1]
        have hk : keepFirst (keepFirst acc (some e))
            (firstExc (invokedOf ec l1)) = keepFirst acc (some e) := by
          rw [keepFirst_assoc]
          cases acc <;> rfl
        simp [firstExc, hb, hk]
      | base e => exact absurd hb (hu e)
    · rw [if_pos (by simp [hskip]), exitLoop_cons_skip ec u (l1 ++ l2) acc hskip]
      exact ih _ h1

/-- The playback loop on a whole list free of non-`Exception` failures. -/
theorem exitLoop_run (ec : Bool) (l : List (Undo α ε)) (acc : Option ε)
    (h : ∀ u ∈ l, NoBase u) :
    exitLoop ec l acc =
      ((invokedOf ec l).map Undo.label,
       Except.ok (keepFirst acc (firstExc (invokedOf ec l)))) := by
  have h0 := exitLoop_append ec [] l acc h
  simpa [exitLoop] using h0

/-- Characterization of `__exit__` when no action raises a non-`Exception`
failure: the non-skipped actions are invoked in order, and the outcome is
the incoming exception if any, else the first undo `Exception`, else a
clean exit. -/
theorem scopeExit_run (c : RollbackContext α ε) (inc : Option ε)
    (h : ∀ u ∈ c._finally, NoBase u) :
    scopeExit c inc =
      ((invokedOf inc.isNone c._finally).map Undo.label,
       (match inc, firstExc (invokedOf inc.isNone c._finally) with
        | some e, _ => ExitOutcome.reraised e
        | none, some e => ExitOutcome.undoRaised e
        | none, none => ExitOutcome.clean),
       c) := by
  unfold scopeExit
  rw [exitLoop_run _ _ _ h]
  rcases inc with _ | e
  · rcases hf : firstExc (invokedOf true c._finally) with _ | e0 <;>
      simp [keepFirst, hf]
  · rfl

/-- The playback loop at `exc_type is not None` never consults the
auto-commit flags: only labels and behaviours matter. -/
theorem exitLoop_false_flag_blind (l1 l2 : List (Undo α ε)) (a : α)
    (b : Invoke ε) (fl fl' : Bool) (acc : Option ε) :
    exitLoop false (l1 ++ (⟨a, b, fl⟩ : Undo α ε) :: l2) acc =
      exitLoop false (l1 ++ (⟨a, b, fl'⟩ : Undo α ε) :: l2) acc := by
  induction l1 generalizing acc with
  | nil =>
    cases b <;> simp [exitLoop]
  | cons u l1 ih =>
    cases hb : u.undo with
    | ok =>
      rw [List.cons_append, List.cons_append,
        exitLoop_cons_ok false u _ acc (by simp) hb,
        exitLoop_cons_ok false u _ acc (by simp) hb, ih]
    | exc e =>
      rw [List.cons_append, List.cons_append,
        exitLoop_cons_exc false u _ acc e (by simp) hb,
        exitLoop_cons_exc false u _ _ e (by simp) hb, ih]
    | base e =>
      rw [List.cons_append, List.cons_append,
        exitLoop_cons_base false u _ acc e (by simp) hb,
        exitLoop_cons_base false u _ acc e (by simp) hb]

/-- State shape after a sequence of `push` calls. -/
theorem pushAll_state (ps : List (α × Invoke ε)) (c : RollbackContext α ε) :
    pushAll c ps =
      ⟨(ps.map mkUndo).reverse ++ c._finally, c._lastUndo⟩ := by
  induction ps generalizing c with
  | nil => rfl
  | cons p ps ih =>
    rw [pushAll, ih]
    simp [push, _push, mkUndo]

/-- State shape after an interleaved sequence of `push` and `pushBottom`
calls: tops reversed at the front, bottoms in order at the back. -/
theorem registerAll_state (rs : List (Bool × α × Invoke ε))
    (c : RollbackContext α ε) :
    registerAll c rs =
      ⟨((topsOf rs).map mkUndo).reverse ++ c._finally ++
         (bottomsOf rs).map mkUndo, c._lastUndo⟩ := by
  induction rs generalizing c with
  | nil => simp [registerAll, topsOf, bottomsOf]
  | cons r rs ih =>
    rcases r with ⟨t, a, b⟩
    cases t
    · rw [registerAll, ih]
      simp [_push, topsOf, bottomsOf, List.filter_cons, mkUndo]
    · rw [registerAll, ih]
      simp [_push, topsOf, bottomsOf, List.filter_cons, mkUndo]

/-- Clean full playback of an interleaved registration sequence in which
every action returns normally. -/
theorem registerAll_clean (rs : List (Bool × α × Invoke ε))
    (h : ∀ r ∈ rs, r.2.2 = Invoke.ok) :
    scopeExit (registerAll (init : RollbackContext α ε) rs) none =
      (((topsOf rs).map Prod.fst).reverse ++ (bottomsOf rs).map Prod.fst,
       ExitOutcome.clean, registerAll (init : RollbackContext α ε) rs) := by
  have hstate := registerAll_state rs (init : RollbackContext α ε)
  have hfin : (registerAll (init : RollbackContext α ε) rs)._finally =
      ((topsOf rs).map mkUndo).reverse ++ (bottomsOf rs).map mkUndo := by
    rw [hstate]; simp [init]
  have htops : ∀ p ∈ topsOf rs, p.2 = Invoke.ok := by
    intro p hp
    simp only [topsOf] at hp
    rcases List.mem_map.mp hp with ⟨r, hr, hrp⟩
    exact hrp ▸ h r (List.mem_of_mem_filter hr)
  have hbots : ∀ p ∈ bottomsOf rs, p.2 = Invoke.ok := by
    intro p hp
    simp only [bottomsOf] at hp
    rcases List.mem_map.mp hp with ⟨r, hr, hrp⟩
    exact hrp ▸ h r (List.mem_of_mem_filter hr)
  have hok : ∀ u ∈ (registerAll (init : RollbackContext α ε) rs)._finally,
      u.undo = Invoke.ok := by
    intro u hu
    rw [hfin] at hu
    rcases List.mem_append.mp hu with h1 | h1
    · rcases List.mem_map.mp (List.mem_reverse.mp h1) with ⟨p, hp, hpu⟩
      exact hpu ▸ htops p hp
    · rcases List.mem_map.mp h1 with ⟨p, hp, hpu⟩
      exact hpu ▸ hbots p hp
  have hflags : ∀ u ∈ (registerAll (init : RollbackContext α ε) rs)._finally,
      u.autoCommit = false := by
    intro u hu
    rw [hfin] at hu
    rcases List.mem_append.mp hu with h1 | h1
    · rcases List.mem_map.mp (List.mem_reverse.mp h1) with ⟨p, _, hpu⟩
      exact hpu ▸ rfl
    · rcases List.mem_map.mp h1 with ⟨p, _, hpu⟩
      exact hpu ▸ rfl
  have hnb : ∀ u ∈ (registerAll (init : RollbackContext α ε) rs)._finally,
      NoBase u := by
    intro u hu e he
    rw [hok u hu] at he
    cases he
  rw [scopeExit_run _ _ hnb]
  rw [invokedOf_all_false _ _ hflags, firstExc_of_ok _ hok, hfin]
  have hcomp : (Undo.label ∘ mkUndo : α × Invoke ε → α) = Prod.fst :=
    funext fun p => rfl
  simp [mkUndo, hcomp]

/-- The trace of invocations reported by `__exit__` is the trace of its
`for` loop, whatever the final outcome. -/
theorem scopeExit_trace (c : RollbackContext α ε) (inc : Option ε) :
    (scopeExit c inc).1 = (exitLoop inc.isNone c._finally none).1 := by
  unfold scopeExit
  rcases exitLoop inc.isNone c._finally none with ⟨t, r⟩
  rcases r with e | acc
  · rfl
  · rcases inc with _ | e
    · rcases acc with _ | e0 <;> rfl
    · rfl

/-- Two context states whose playback loops agree produce the same trace
and the same outcome on scope exit. -/
theorem scopeExit_congr (c c' : RollbackContext α ε) (inc : Option ε)
    (h : exitLoop inc.isNone c._finally none =
      exitLoop inc.isNone c'._finally none) :
    (scopeExit c inc).1 = (scopeExit c' inc).1 ∧
      (scopeExit c inc).2.1 = (scopeExit c' inc).2.1 := by
  unfold scopeExit
  rw [h]
  rcases exitLoop inc.isNone c'._finally none with ⟨t, r⟩
  rcases r with e | acc
  · exact ⟨rfl, rfl⟩
  · rcases inc with _ | e
    · rcases acc with _ | e0 <;> exact ⟨rfl, rfl⟩
    · exact ⟨rfl, rfl⟩

theorem topsOf_append (xs ys : List (Bool × α × Invoke ε)) :
    topsOf (xs ++ ys) = topsOf xs ++ topsOf ys := by
  simp [topsOf, List.filter_append]

theorem bottomsOf_append (xs ys : List (Bool × α × Invoke ε)) :
    bottomsOf (xs ++ ys) = bottomsOf xs ++ bottomsOf ys := by
  simp [bottomsOf, List.filter_append]

theorem topsOf_cons_bottom (a : α) (b : Invoke ε)
    (rs : List (Bool × α × Invoke ε)) :
    topsOf ((false, a, b) :: rs) = topsOf rs := by
  simp [topsOf, List.filter_cons]

theorem bottomsOf_cons_bottom (a : α) (b : Invoke ε)
    (rs : List (Bool × α × Invoke ε)) :
    bottomsOf ((false, a, b) :: rs) = (a, b) :: bottomsOf rs := by
  simp [bottomsOf, List.filter_cons]

/-! Claims. -/

/-- C1: for every sequence of `push` calls (no `pushBottom`, no
`commitAll`, no failures anywhere), scope exit invokes the registered
actions in the exact reverse of registration order — pushing A then B then
C plays back C, B, A — each action exactly once with its bound
arguments. -/
theorem c1_push_only_reverse_playback (ps : List (α × Invoke ε))
    (h : ∀ p ∈ ps, p.2 = Invoke.ok) :
    scopeExit (pushAll (init : RollbackContext α ε) ps) none =
      ((ps.map Prod.fst).reverse, ExitOutcome.clean,
       pushAll (init : RollbackContext α ε) ps) := by
  have hfin : (pushAll (init : RollbackContext α ε) ps)._finally =
      (ps.map mkUndo).reverse := by
    rw [pushAll_state]; simp [init]
  have hok : ∀ u ∈ (pushAll (init : RollbackContext α ε) ps)._finally,
      u.undo = Invoke.ok := by
    intro u hu
    rw [hfin] at hu
    rcases List.mem_map.mp (List.mem_reverse.mp hu) with ⟨p, hp, hpu⟩
    exact hpu ▸ h p hp
  have hflags : ∀ u ∈ (pushAll (init : RollbackContext α ε) ps)._finally,
      u.autoCommit = false := by
    intro u hu
    rw [hfin] at hu
    rcases List.mem_map.mp (List.mem_reverse.mp hu) with ⟨p, _, hpu⟩
    exact hpu ▸ rfl
  have hnb : ∀ u ∈ (pushAll (init : RollbackContext α ε) ps)._finally,
      NoBase u := by
    intro u hu e he
    rw [hok u hu] at he
    cases he
  rw [scopeExit_run _ _ hnb, invokedOf_all_false _ _ hflags,
    firstExc_of_ok _ hok, hfin]
  have hcomp : (Undo.label ∘ mkUndo : α × Invoke ε → α) = Prod.fst :=
    funext fun p => rfl
  simp [mkUndo, hcomp]

/-- Witness for C1 at a concrete input: pushing 1, 2, 3 plays back
3, 2, 1. -/
theorem c1_push_only_reverse_playback_witness :
    scopeExit (pushAll (init : RollbackContext Nat Nat)
        [(1, Invoke.ok), (2, Invoke.ok), (3, Invoke.ok)]) none =
      ([3, 2, 1], ExitOutcome.clean,
       pushAll (init : RollbackContext Nat Nat)
        [(1, Invoke.ok), (2, Invoke.ok), (3, Invoke.ok)]) := by
  have h := c1_push_only_reverse_playback
    [((1 : Nat), (Invoke.ok : Invoke Nat)), (2, Invoke.ok), (3, Invoke.ok)]
    (by decide)
  simpa using h

/-- C4: a failure raised by one undo action never prevents the remaining
undo actions from being invoked (here for failures the loop handles, i.e.
`Exception` instances — the non-`Exception` case is the subject of C10):
the trace of invocations is exactly the list of actions not skipped by the
auto-commit rule, in playback order, each exactly once, regardless of how
many of them raise. -/
theorem c4_playback_never_stops (c : RollbackContext α ε) (inc : Option ε)
    (h : ∀ u ∈ c._finally, NoBase u) :
    (scopeExit c inc).1 =
      (invokedOf inc.isNone c._finally).map Undo.label := by
  rw [scopeExit_trace, exitLoop_run _ _ _ h]

/-- Witness for C4 at a concrete input: the two leading actions raise, yet
the last one still runs (trace 0, 1, 3; the flagged action 2 is
skipped). -/
theorem c4_playback_never_stops_witness :
    (scopeExit (⟨[⟨0, Invoke.exc 1, false⟩, ⟨1, Invoke.exc 2, false⟩,
        ⟨2, Invoke.ok, true⟩, ⟨3, Invoke.ok, false⟩], none⟩ :
      RollbackContext Nat Nat) none).1 = [0, 1, 3] := by
  rw [c4_playback_never_stops (⟨[⟨0, Invoke.exc 1, false⟩,
    ⟨1, Invoke.exc 2, false⟩, ⟨2, Invoke.ok, true⟩, ⟨3, Invoke.ok, false⟩],
    none⟩ : RollbackContext Nat Nat) none (by decide)]
  decide

/-- C5: for every interleaving of `push` and `pushBottom` calls with no
failures, playback runs all `push`-registered actions first, in reverse
registration order, then all `pushBottom`-registered actions in forward
registration order. -/
theorem c5_interleaved_order (rs : List (Bool × α × Invoke ε))
    (h : ∀ r ∈ rs, r.2.2 = Invoke.ok) :
    scopeExit (registerAll (init : RollbackContext α ε) rs) none =
      (((topsOf rs).map Prod.fst).reverse ++ (bottomsOf rs).map Prod.fst,
       ExitOutcome.clean, registerAll (init : RollbackContext α ε) rs) :=
  registerAll_clean rs h

/-- Witness for C5 at the concrete input of the repository's
`test_rollback_bottom`: pushBottom 1, push 0, pushBottom 2 plays back
0, 1, 2. -/
theorem c5_interleaved_order_witness :
    scopeExit (registerAll (init : RollbackContext Nat Nat)
        [(false, 1, Invoke.ok), (true, 0, Invoke.ok),
         (false, 2, Invoke.ok)]) none =
      ([0, 1, 2], ExitOutcome.clean,
       registerAll (init : RollbackContext Nat Nat)
        [(false, 1, Invoke.ok), (true, 0, Invoke.ok),
         (false, 2, Invoke.ok)]) := by
  rw [c5_interleaved_order
    [((false : Bool), (1 : Nat), (Invoke.ok : Invoke Nat)),
     (true, 0, Invoke.ok), (false, 2, Invoke.ok)] (by decide)]
  decide

/-- C7 counterexample: the claim says the undo list is empty after
`__exit__` returns, but `__exit__` iterates the deque without consuming it
and never clears it: after a scope with one pushed action exits, the list
still holds that action. -/
theorem c7_counterexample :
    (scopeExit ((push (init : RollbackContext Nat Nat) 0 Invoke.ok).2)
      none).2.2._finally ≠ [] := by
  decide

/-- C7 (amended): `__exit__` leaves the undo list (indeed the whole object
state) unchanged for every scope and every exit, clean or failing; the
scope is still not meant to be reused, but the list is not emptied. -/
theorem c7_finally_unchanged (c : RollbackContext α ε) (inc : Option ε) :
    (scopeExit c inc).2.2 = c := by
  unfold scopeExit
  rcases exitLoop inc.isNone c._finally none with ⟨t, r⟩
  rcases r with e | acc
  · rfl
  · rcases inc with _ | e
    · rcases acc with _ | e0 <;> rfl
    · rfl

/-- C8: `commitAll` discards every registered undo action without invoking
any (no trace event is produced by it), leaves the list empty so that a
subsequent clean exit invokes zero actions, and changes nothing else about
the scope's state (`_lastUndo` is untouched). -/
theorem c8_commitAll_discards (c : RollbackContext α ε) :
    (commitAll c)._finally = [] ∧
    (commitAll c)._lastUndo = c._lastUndo ∧
    scopeExit (commitAll c) none = ([], ExitOutcome.clean, commitAll c) :=
  ⟨rfl, rfl, rfl⟩

/-- C9: `push` and `pushBottom` only register: the new record (flag unset)
is inserted at the top resp. bottom of the list, every previously
registered record is untouched, `_lastUndo` is unchanged, no invocation
happens (registration produces no trace; only `scopeExit` does), and the
returned handle is the stored record itself (the head resp. last entry of
the list), which is why `setAutoCommit` on the handle is visible to the
playback loop. -/
theorem c9_push_registration_only (c : RollbackContext α ε) (a : α)
    (b : Invoke ε) :
    (push c a b).2._finally = (⟨a, b, false⟩ : Undo α ε) :: c._finally ∧
    (push c a b).2._lastUndo = c._lastUndo ∧
    (push c a b).1 = (⟨a, b, false⟩ : Undo α ε) ∧
    (push c a b).2._finally.head? = some (push c a b).1 ∧
    (pushBottom c a b).2._finally =
      c._finally ++ [(⟨a, b, false⟩ : Undo α ε)] ∧
    (pushBottom c a b).2._lastUndo = c._lastUndo ∧
    (pushBottom c a b).1 = (⟨a, b, false⟩ : Undo α ε) ∧
    (pushBottom c a b).2._finally.getLast? = some (pushBottom c a b).1 := by
  refine ⟨rfl, rfl, rfl, rfl, rfl, rfl, rfl, ?_⟩
  show (c._finally ++ [(⟨a, b, false⟩ : Undo α ε)]).getLast? = _
  rw [List.getLast?_concat]
  rfl

/-- C2: at most one failure is surfaced from a scope exit, chosen by the
precedence protected-block-failure > first-undo-failure-in-playback-order >
none: an incoming failure is always the one re-raised (all undo failures
are discarded), and on a clean protected block the first `Exception` raised
by an invoked undo action, if any, is what propagates.  Stated for playback
runs whose undo failures are `Exception` instances — the non-`Exception`
case is the subject of C10. -/
theorem c2_failure_precedence (c : RollbackContext α ε)
    (h : ∀ u ∈ c._finally, NoBase u) :
    (∀ e, (scopeExit c (some e)).2.1 = ExitOutcome.reraised e) ∧
    ((scopeExit c none).2.1 =
      match firstExc (invokedOf true c._finally) with
      | some e => ExitOutcome.undoRaised e
      | none => ExitOutcome.clean) := by
  constructor
  · intro e
    rw [scopeExit_run _ _ h]
  · rw [scopeExit_run _ _ h]
    rcases hf : firstExc (invokedOf true c._finally) with _ | e <;>
      simp [hf]

/-- Witness for C2 at a concrete input: two failing undo actions; with an
incoming failure 7 it is re-raised; on a clean block the first undo
failure (5, not 6) propagates. -/
theorem c2_failure_precedence_witness :
    (scopeExit (⟨[⟨0, Invoke.exc 5, false⟩, ⟨1, Invoke.exc 6, false⟩],
        none⟩ : RollbackContext Nat Nat) (some 7)).2.1 =
      ExitOutcome.reraised 7 ∧
    (scopeExit (⟨[⟨0, Invoke.exc 5, false⟩, ⟨1, Invoke.exc 6, false⟩],
        none⟩ : RollbackContext Nat Nat) none).2.1 =
      ExitOutcome.undoRaised 5 := by
  have h := c2_failure_precedence (⟨[⟨0, Invoke.exc 5, false⟩,
    ⟨1, Invoke.exc 6, false⟩], none⟩ : RollbackContext Nat Nat) (by decide)
  refine ⟨h.1 7, ?_⟩
  rw [h.2]
  decide

/-- C3: for an `UndoAction` whose `setAutoCommit` was called before scope
exit (the stored record carries a set flag), a clean exit skips exactly
that action (same trace and outcome as if it were not registered), an exit
with an incoming failure still invokes it at its position in playback
order, and the flag never changes the playback order of the other actions
(the failing-exit playback is blind to the flag).  Stated for playback
runs whose undo failures are `Exception` instances — the non-`Exception`
case is the subject of C10. -/
theorem c3_autoCommit_flag (l1 l2 : List (Undo α ε)) (a : α) (b : Invoke ε)
    (lu : Option (Undo α ε)) (e : ε) (fl fl' : Bool)
    (h1 : ∀ u ∈ l1, NoBase u) (h2 : NoBase (⟨a, b, false⟩ : Undo α ε)) :
    ((scopeExit ⟨l1 ++ setAutoCommit ⟨a, b, false⟩ :: l2, lu⟩ none).1 =
       (scopeExit ⟨l1 ++ l2, lu⟩ none).1) ∧
    ((scopeExit ⟨l1 ++ setAutoCommit ⟨a, b, false⟩ :: l2, lu⟩ none).2.1 =
       (scopeExit ⟨l1 ++ l2, lu⟩ none).2.1) ∧
    ((scopeExit ⟨l1 ++ setAutoCommit ⟨a, b, false⟩ :: l2, lu⟩ (some e)).1 =
       l1.map Undo.label ++ a ::
         (exitLoop false l2 (keepFirst (firstExc l1) (excOf b))).1) ∧
    ((scopeExit ⟨l1 ++ (⟨a, b, fl⟩ : Undo α ε) :: l2, lu⟩ (some e)).1 =
       (scopeExit ⟨l1 ++ (⟨a, b, fl'⟩ : Undo α ε) :: l2, lu⟩ (some e)).1) ∧
    ((scopeExit ⟨l1 ++ (⟨a, b, fl⟩ : Undo α ε) :: l2, lu⟩ (some e)).2.1 =
       (scopeExit ⟨l1 ++ (⟨a, b, fl'⟩ : Undo α ε) :: l2, lu⟩ (some e)).2.1)
    := by
  have hskipkey :
      exitLoop true (l1 ++ setAutoCommit ⟨a, b, false⟩ :: l2)
        (none : Option ε) = exitLoop true (l1 ++ l2) none := by
    rw [exitLoop_append true _ l1 none h1, exitLoop_append true l2 l1 none h1,
      exitLoop_cons_skip true _ l2 _ (by simp [setAutoCommit])]
  have hab := scopeExit_congr
    ⟨l1 ++ setAutoCommit ⟨a, b, false⟩ :: l2, lu⟩ ⟨l1 ++ l2, lu⟩ none
    hskipkey
  have hflag := scopeExit_congr ⟨l1 ++ (⟨a, b, fl⟩ : Undo α ε) :: l2, lu⟩
    ⟨l1 ++ (⟨a, b, fl'⟩ : Undo α ε) :: l2, lu⟩ (some e)
    (exitLoop_false_flag_blind l1 l2 a b fl fl' none)
  refine ⟨hab.1, hab.2, ?_, hflag.1, hflag.2⟩
  rw [scopeExit_trace]
  show (exitLoop false (l1 ++ setAutoCommit ⟨a, b, false⟩ :: l2) none).1 = _
  rw [exitLoop_append false _ l1 none h1, invokedOf_false,
    keepFirst_none_left]
  cases hb : b with
  | ok =>
    rw [exitLoop_cons_ok false _ l2 _ (by simp) (by simp [setAutoCommit])]
    simp [setAutoCommit, excOf, keepFirst_none_right]
  | exc e2 =>
    rw [exitLoop_cons_exc false _ l2 _ e2 (by simp)
      (by simp [setAutoCommit, hb])]
    simp [setAutoCommit, excOf]
  | base e2 => exact absurd hb (h2 e2)

/-- Witness for C3 at a concrete input: a failing action before, the
flagged action 1 in the middle, an ok action after. -/
theorem c3_autoCommit_flag_witness :
    ((scopeExit (⟨[⟨0, Invoke.exc 4, false⟩] ++
        setAutoCommit ⟨1, Invoke.ok, false⟩ :: [⟨2, Invoke.ok, false⟩],
        none⟩ : RollbackContext Nat Nat) none).1 =
      (scopeExit (⟨[⟨0, Invoke.exc 4, false⟩] ++ [⟨2, Invoke.ok, false⟩],
        none⟩ : RollbackContext Nat Nat) none).1) ∧
    ((scopeExit (⟨[⟨0, Invoke.exc 4, false⟩] ++
        setAutoCommit ⟨1, Invoke.ok, false⟩ :: [⟨2, Invoke.ok, false⟩],
        none⟩ : RollbackContext Nat Nat) none).2.1 =
      (scopeExit (⟨[⟨0, Invoke.exc 4, false⟩] ++ [⟨2, Invoke.ok, false⟩],
        none⟩ : RollbackContext Nat Nat) none).2.1) ∧
    ((scopeExit (⟨[⟨0, Invoke.exc 4, false⟩] ++
        setAutoCommit ⟨1, Invoke.ok, false⟩ :: [⟨2, Invoke.ok, false⟩],
        none⟩ : RollbackContext Nat Nat) (some 9)).1 =
      [⟨0, Invoke.exc 4, false⟩].map Undo.label ++ 1 ::
        (exitLoop false [⟨2, Invoke.ok, false⟩]
          (keepFirst (firstExc [⟨0, Invoke.exc 4, false⟩])
            (excOf Invoke.ok))).1) ∧
    ((scopeExit (⟨[⟨0, Invoke.exc 4, false⟩] ++
        (⟨1, Invoke.ok, true⟩ : Undo Nat Nat) :: [⟨2, Invoke.ok, false⟩],
        none⟩ : RollbackContext Nat Nat) (some 9)).1 =
      (scopeExit (⟨[⟨0, Invoke.exc 4, false⟩] ++
        (⟨1, Invoke.ok, false⟩ : Undo Nat Nat) :: [⟨2, Invoke.ok, false⟩],
        none⟩ : RollbackContext Nat Nat) (some 9)).1) ∧
    ((scopeExit (⟨[⟨0, Invoke.exc 4, false⟩] ++
        (⟨1, Invoke.ok, true⟩ : Undo Nat Nat) :: [⟨2, Invoke.ok, false⟩],
        none⟩ : RollbackContext Nat Nat) (some 9)).2.1 =
      (scopeExit (⟨[⟨0, Invoke.exc 4, false⟩] ++
        (⟨1, Invoke.ok, false⟩ : Undo Nat Nat) :: [⟨2, Invoke.ok, false⟩],
        none⟩ : RollbackContext Nat Nat) (some 9)).2.1) :=
  c3_autoCommit_flag [⟨0, Invoke.exc 4, false⟩] [⟨2, Invoke.ok, false⟩]
    1 Invoke.ok none 9 true false (by decide) (by decide)

/-- C6 counterexample: the claim says a `pushBottom`-registered action runs
before bottom-registered actions added earlier; but after pushBottom 1 then
pushBottom 2 the playback order is 1, 2 — the later bottom action 2 does
not run before the earlier bottom action 1. -/
theorem c6_counterexample :
    (scopeExit (registerAll (init : RollbackContext Nat Nat)
        [(false, 1, Invoke.ok), (false, 2, Invoke.ok)]) none).1 = [1, 2] ∧
    ¬ ((scopeExit (registerAll (init : RollbackContext Nat Nat)
        [(false, 1, Invoke.ok), (false, 2, Invoke.ok)]) none).1.indexOf 2 <
       (scopeExit (registerAll (init : RollbackContext Nat Nat)
        [(false, 1, Invoke.ok), (false, 2, Invoke.ok)]) none).1.indexOf 1)
    := by
  decide

/-- C6 (amended): an action registered with `pushBottom` executes after all
actions currently registered at the time of the call (including actions
later registered at the top), and after any other bottom-registered
actions that were added earlier — before bottom-registered actions added
later.  In the clean playback of `rs1 ++ [(pushBottom, a)] ++ rs2` the
label `a` sits after every top-registered label and after the bottoms of
`rs1`, before the bottoms of `rs2`. -/
theorem c6_pushBottom_position (rs1 rs2 : List (Bool × α × Invoke ε))
    (a : α) (h1 : ∀ r ∈ rs1, r.2.2 = Invoke.ok)
    (h2 : ∀ r ∈ rs2, r.2.2 = Invoke.ok) :
    (scopeExit (registerAll (init : RollbackContext α ε)
        (rs1 ++ (false, a, Invoke.ok) :: rs2)) none).1 =
      ((topsOf rs1 ++ topsOf rs2).map Prod.fst).reverse ++
        ((bottomsOf rs1).map Prod.fst ++
          a :: (bottomsOf rs2).map Prod.fst) := by
  have hall : ∀ r ∈ rs1 ++ (false, a, Invoke.ok) :: rs2,
      r.2.2 = Invoke.ok := by
    intro r hr
    rcases List.mem_append.mp hr with hm | hm
    · exact h1 r hm
    · rcases List.mem_cons.mp hm with hm | hm
      · rw [hm]
      · exact h2 r hm
  have h := congrArg Prod.fst (registerAll_clean _ hall)
  rw [h]
  rw [topsOf_append, topsOf_cons_bottom, bottomsOf_append,
    bottomsOf_cons_bottom]
  simp [List.map_append]

/-- Witness for the amended C6 at a concrete input: with tops 0 (before)
and 3 (after), bottoms 5 (before) and 8 (after), the bottom-pushed 7 plays
back after 3, 0, 5 and before 8. -/
theorem c6_pushBottom_position_witness :
    (scopeExit (registerAll (init : RollbackContext Nat Nat)
        ([(true, 0, Invoke.ok), (false, 5, Invoke.ok)] ++
          (false, 7, Invoke.ok) ::
            [(true, 3, Invoke.ok), (false, 8, Invoke.ok)])) none).1 =
      [3, 0, 5, 7, 8] := by
  rw [c6_pushBottom_position [(true, 0, Invoke.ok), (false, 5, Invoke.ok)]
    [((true : Bool), (3 : Nat), (Invoke.ok : Invoke Nat)),
     (false, 8, Invoke.ok)] 7 (by decide) (by decide)]
  decide

/-- C10: the swallow-and-continue behaviour of the playback loop applies
only to `Exception` instances (the loop's `except Exception:` clause).  If
an undo action raises a non-`Exception` failure, playback aborts right
after that invocation, the remaining actions are not invoked, and that
failure propagates to the caller — even when an incoming protected-block
failure exists (first conjunct); likewise on a clean protected block
(second conjunct, for a non-auto-committing action). -/
theorem c10_base_exception_aborts (l1 l2 : List (Undo α ε)) (a : α) (e : ε)
    (fl : Bool) (lu : Option (Undo α ε)) (e0 : ε)
    (h1 : ∀ u ∈ l1, NoBase u) (h2 : ∀ u ∈ l1, u.autoCommit = false) :
    (scopeExit ⟨l1 ++ (⟨a, Invoke.base e, fl⟩ : Undo α ε) :: l2, lu⟩
        (some e0) =
      (l1.map Undo.label ++ [a], ExitOutcome.baseAbort e,
       ⟨l1 ++ (⟨a, Invoke.base e, fl⟩ : Undo α ε) :: l2, lu⟩)) ∧
    (fl = false →
      scopeExit ⟨l1 ++ (⟨a, Invoke.base e, fl⟩ : Undo α ε) :: l2, lu⟩
          none =
        (l1.map Undo.label ++ [a], ExitOutcome.baseAbort e,
         ⟨l1 ++ (⟨a, Invoke.base e, fl⟩ : Undo α ε) :: l2, lu⟩)) := by
  constructor
  · have hloop : exitLoop false
        (l1 ++ (⟨a, Invoke.base e, fl⟩ : Undo α ε) :: l2) (none : Option ε)
        = (l1.map Undo.label ++ [a], Except.error e) := by
      rw [exitLoop_append false _ l1 none h1,
        exitLoop_cons_base false _ l2 _ e (by simp) rfl, invokedOf_false]
    unfold scopeExit
    rw [show (some e0).isNone = false from rfl, hloop]
  · intro hfl
    have hloop : exitLoop true
        (l1 ++ (⟨a, Invoke.base e, fl⟩ : Undo α ε) :: l2) (none : Option ε)
        = (l1.map Undo.label ++ [a], Except.error e) := by
      rw [exitLoop_append true _ l1 none h1,
        exitLoop_cons_base true _ l2 _ e (by simp [hfl]) rfl,
        invokedOf_all_false _ _ h2]
    unfold scopeExit
    rw [show (none : Option ε).isNone = true from rfl, hloop]

/-- Witness for C10 at a concrete input: action 0 raises Exception 9,
action 1 raises a non-Exception failure 7, action 5 never runs; 7
propagates both over the incoming failure 3 and on a clean block. -/
theorem c10_base_exception_aborts_witness :
    (scopeExit (⟨[⟨0, Invoke.exc 9, false⟩] ++
        (⟨1, Invoke.base 7, false⟩ : Undo Nat Nat) ::
          [⟨5, Invoke.ok, false⟩], none⟩ : RollbackContext Nat Nat)
        (some 3) =
      ([0, 1], ExitOutcome.baseAbort 7,
       ⟨[⟨0, Invoke.exc 9, false⟩] ++
         (⟨1, Invoke.base 7, false⟩ : Undo Nat Nat) ::
           [⟨5, Invoke.ok, false⟩], none⟩)) ∧
    (scopeExit (⟨[⟨0, Invoke.exc 9, false⟩] ++
        (⟨1, Invoke.base 7, false⟩ : Undo Nat Nat) ::
          [⟨5, Invoke.ok, false⟩], none⟩ : RollbackContext Nat Nat)
        none =
      ([0, 1], ExitOutcome.baseAbort 7,
       ⟨[⟨0, Invoke.exc 9, false⟩] ++
         (⟨1, Invoke.base 7, false⟩ : Undo Nat Nat) ::
           [⟨5, Invoke.ok, false⟩], none⟩)) := by
  have h := c10_base_exception_aborts [⟨0, Invoke.exc 9, false⟩]
    [⟨5, Invoke.ok, false⟩] 1 7 false none 3 (by decide) (by decide)
  exact ⟨h.1, h.2 rfl⟩

end Rollback
